import Mathlib

/-!
Verification development for the chunking and hybrid-retrieval core of the
AI-Tutor repository (`src/core/chunker.py`, `src/core/bm25_retriever.py`,
`src/core/embedding_retriever.py`, `src/core/hybrid_retriever.py`).

Texts are modelled as `List Char`.  Behaviour supplied by external
collaborators (the `tiktoken` tokenizer, the `rank_bm25` per-term scores,
the sentence-transformer embedding model, the FAISS sentinel score) is kept
as an explicit parameter of the corresponding definition, while every piece
of control flow that lives in the repository's own code is translated
literally.
-/

namespace AITutor

open scoped List

/-- A stable descending insertion step: `x` is placed in front of the first
element whose key is strictly smaller, hence after every earlier element with
an equal key.  Together with `stableSortDesc` this models Python's stable
`list.sort(key=..., reverse=True)` / `sorted(..., reverse=True)`. -/
def insDesc (key : α → ℚ) (x : α) : List α → List α
  | [] => [x]
  | y :: ys => if key y < key x then x :: y :: ys else y :: insDesc key x ys

/-- Stable descending sort by a rational key (model of Python's stable sort
with `reverse=True`, which keeps equal-key elements in input order). -/
def stableSortDesc (key : α → ℚ) (l : List α) : List α :=
  l.foldl (fun acc y => insDesc key y acc) []

/-- Word characters of the regex `\w` used by `BM25Retriever._tokenize`
(ASCII approximation: letters, digits, underscore). -/
def isWordChar (c : Char) : Bool := c.isAlphanum || c = '_'

/-- Splits a character list at every non-word character, keeping (possibly
empty) runs of word characters; helper for `tokenize`. -/
def wordRuns : List Char → List (List Char)
  | [] => [[]]
  | c :: rest =>
    if isWordChar c then
      match wordRuns rest with
      | [] => [[c]]
      | t :: ts => (c :: t) :: ts
    else [] :: wordRuns rest

/-- `BM25Retriever._tokenize`: lowercase, then `re.findall(r'\b\w+\b', text)`,
i.e. the maximal non-empty runs of word characters. -/
def tokenize (text : List Char) : List (List Char) :=
  (wordRuns (text.map Char.toLower)).filter (fun t => !t.isEmpty)

/-- `rank_bm25.BM25Okapi.get_scores`: the library's score of a document is
the sum, over the query tokens (with multiplicity), of a per-term quantity
`idf(t) * tf(t, d) * (k1 + 1) / (tf(t, d) + k1 * (1 - b + b * |d| / avgdl))`.
The per-term quantity is supplied as the opaque parameter `termScore`
(token → document index → value); only the additive structure over the query
tokens is fixed by the library. -/
def get_scores (termScore : List Char → ℕ → ℚ) (queryTokens : List (List Char))
    (n : ℕ) : List ℚ :=
  (List.range n).map (fun d => (queryTokens.map (fun t => termScore t d)).sum)

/-- The index ranking computed inside `BM25Retriever.search`:
`sorted(range(len(scores)), key=lambda i: scores[i], reverse=True)`.
Python's `sorted` is stable and `range` is ascending, so ties are broken by
the original chunk order. -/
def BM25Retriever.rankedIdx (termScore : List Char → ℕ → ℚ) (n : ℕ)
    (query : List Char) : List ℕ :=
  stableSortDesc (fun i => (get_scores termScore (tokenize query) n).getD i 0)
    (List.range n)

/-- `BM25Retriever.search`: tokenize the query, score every chunk, sort the
chunk indices descending by score (stable), truncate to `top_k`, and pair
each surviving index with its chunk and score.  Chunks are identified by the
opaque payloads stored in `chunks` (a `ℕ` stands for the chunk dict). -/
def BM25Retriever.search (termScore : List Char → ℕ → ℚ) (chunks : List ℕ)
    (query : List Char) (top_k : ℕ) : List (ℕ × ℚ) :=
  let scores := get_scores termScore (tokenize query) chunks.length
  ((BM25Retriever.rankedIdx termScore chunks.length query).take top_k).map
    (fun i => (chunks.getD i 0, scores.getD i 0))

/-- `BM25Retriever.search_with_threshold`: run `search`, then keep the pairs
whose score is `≥ threshold`. -/
def BM25Retriever.search_with_threshold (termScore : List Char → ℕ → ℚ)
    (chunks : List ℕ) (query : List Char) (threshold : ℚ) (top_k : ℕ) :
    List (ℕ × ℚ) :=
  (BM25Retriever.search termScore chunks query top_k).filter
    (fun p => decide (threshold ≤ p.2))

/-- Python sequence indexing `chunks[idx]` for a possibly negative index, as
used in `EmbeddingRetriever.search` on the FAISS output: a negative `idx`
resolves to `len(chunks) + idx`. -/
def pyIndex (n : ℕ) (i : ℤ) : ℕ :=
  if 0 ≤ i then i.toNat else n - (-i).toNat

/-- `faiss.IndexFlatIP.search` on `n` stored vectors with `top_k` requested
rows: exact search returns the `min n top_k` best (index, inner-product)
pairs sorted descending, then pads the row to exactly `top_k` entries with
index `-1` and a sentinel score (`sentinel` stands for the library's
most-negative-float filler).  `sims` is the inner product of the normalized
query with each stored vector (i.e. the cosine similarities), supplied by the
opaque embedding model. -/
def faissTop (sentinel : ℚ) (sims : List ℚ) (top_k : ℕ) : List (ℤ × ℚ) :=
  let pairs : List (ℤ × ℚ) :=
    (List.range sims.length).map (fun i => (((i : ℕ) : ℤ), sims.getD i 0))
  let ranked := (stableSortDesc Prod.snd pairs).take top_k
  ranked ++ List.replicate (top_k - ranked.length) ((-1 : ℤ), sentinel)

/-- `EmbeddingRetriever.search`: FAISS returns `top_k` (index, score) rows;
the code then builds `[(self.chunks[idx], float(score)) for idx, score ...]`,
where a padding index `-1` resolves by Python negative indexing to the last
chunk. -/
def EmbeddingRetriever.search (sentinel : ℚ) (chunks : List ℕ) (sims : List ℚ)
    (top_k : ℕ) : List (ℕ × ℚ) :=
  (faissTop sentinel sims top_k).map
    (fun p => (chunks.getD (pyIndex chunks.length p.1) 0, p.2))

/-- `EmbeddingRetriever.search_with_threshold`: run `search`, then keep the
pairs whose score is `≥ threshold`. -/
def EmbeddingRetriever.search_with_threshold (sentinel : ℚ) (chunks : List ℕ)
    (sims : List ℚ) (threshold : ℚ) (top_k : ℕ) : List (ℕ × ℚ) :=
  (EmbeddingRetriever.search sentinel chunks sims top_k).filter
    (fun p => decide (threshold ≤ p.2))

/-- One fusion-dictionary entry of `HybridRetriever.search`: the value stored
under `id(chunk)` in `rrf_scores`, i.e. the chunk together with its
`bm25_rrf` and `embedding_rrf` contributions.  The dictionary itself is
modelled as a `List FEntry` in insertion order (Python dicts preserve
insertion order; overwriting a value keeps the key's position). -/
structure FEntry where
  cid : ℕ
  bm : ℚ
  emb : ℚ
deriving DecidableEq

/-- Write of the first loop of `HybridRetriever.search`:
`rrf_scores[chunk_id] = {'chunk':…, 'bm25_rrf': v, 'embedding_rrf': 0.0}` —
replace the whole record when the key exists, else append it. -/
def setBm (c : ℕ) (v : ℚ) : List FEntry → List FEntry
  | [] => [⟨c, v, 0⟩]
  | e :: es => if e.cid = c then ⟨c, v, 0⟩ :: es else e :: setBm c v es

/-- Write of the second loop of `HybridRetriever.search`: update
`['embedding_rrf']` in place when the key exists, else append a record with
`bm25_rrf = 0.0`. -/
def setEmb (c : ℕ) (v : ℚ) : List FEntry → List FEntry
  | [] => [⟨c, 0, v⟩]
  | e :: es => if e.cid = c then ⟨e.cid, e.bm, v⟩ :: es else e :: setEmb c v es

/-- First loop of `HybridRetriever.search` over the BM25 result list:
`for rank, (chunk, score) in enumerate(bm25_results, start=1)` writing
`1.0 / (60 + rank)`. -/
def bmPhase : List ℕ → ℕ → List FEntry → List FEntry
  | [], _, st => st
  | c :: cs, r, st => bmPhase cs (r + 1) (setBm c (1 / (60 + (r : ℚ))) st)

/-- Second loop of `HybridRetriever.search` over the embedding result list. -/
def embPhase : List ℕ → ℕ → List FEntry → List FEntry
  | [], _, st => st
  | c :: cs, r, st => embPhase cs (r + 1) (setEmb c (1 / (60 + (r : ℚ))) st)

/-- The fusion dictionary `rrf_scores` after both loops of
`HybridRetriever.search`, given the two candidate lists.  Candidates are
identified by their position in the shared chunk collection: both retrievers
return references into the same list of distinct dict objects, so `id(chunk)`
distinguishes chunks exactly as the index does. -/
def rrf_entries (bm25_results embedding_results : List ℕ) : List FEntry :=
  embPhase embedding_results 1 (bmPhase bm25_results 1 [])

/-- `HybridRetriever.search`, parametrized by the two sub-retriever candidate
lists (`self.bm25.search(query, bm25_k)` and
`self.embedding.search(query, embedding_k)` are opaque model/library calls;
their ranked chunk lists are the inputs here).  The fusion dictionary is
turned into `(chunk, alpha * embedding_rrf + (1 - alpha) * bm25_rrf)` pairs
in insertion order, sorted descending by score with Python's stable sort, and
truncated to `top_k`. -/
def HybridRetriever.search (bm25_results embedding_results : List ℕ)
    (alpha : ℚ) (top_k : ℕ) : List (ℕ × ℚ) :=
  (stableSortDesc Prod.snd
    ((rrf_entries bm25_results embedding_results).map
      (fun e => (e.cid, alpha * e.emb + (1 - alpha) * e.bm)))).take top_k

/-- Specification-side RRF contribution (from the spec's words): the chunk at
1-based rank `r` of a result list contributes `1 / (60 + r)`; a chunk absent
from the list contributes `0`.  `r` is the starting rank of the remaining
list. -/
def rrfContribFrom (r : ℕ) : List ℕ → ℕ → ℚ
  | [], _ => 0
  | x :: xs, c => if x = c then 1 / (60 + (r : ℚ)) else rrfContribFrom (r + 1) xs c

/-- Specification-side RRF contribution with ranks starting at 1. -/
def rrfContrib (l : List ℕ) (c : ℕ) : ℚ := rrfContribFrom 1 l c

/-- Specification-side fused candidate list (from the spec's words): the
unique candidates in first-seen order (lexical-list order first, then
semantic-only additions), each paired with
`alpha * semantic_contribution + (1 - alpha) * lexical_contribution`. -/
def rrfSpecPairs (bm25_results embedding_results : List ℕ) (alpha : ℚ) :
    List (ℕ × ℚ) :=
  (bm25_results ++ embedding_results.filter (fun c => decide (c ∉ bm25_results))).map
    (fun c => (c, alpha * rrfContrib embedding_results c +
      (1 - alpha) * rrfContrib bm25_results c))

/-- Specification-side hybrid search: the fused candidates sorted descending
by fused score (ties by first-seen order, i.e. a stable sort of the
insertion-ordered list), truncated to `top_k`. -/
def HybridRetriever.searchSpec (bm25_results embedding_results : List ℕ)
    (alpha : ℚ) (top_k : ℕ) : List (ℕ × ℚ) :=
  (stableSortDesc Prod.snd (rrfSpecPairs bm25_results embedding_results alpha)).take top_k

/-- Python `str.strip()` on a character list: drop whitespace from both
ends. -/
def trim (cs : List Char) : List Char :=
  ((cs.dropWhile Char.isWhitespace).reverse.dropWhile Char.isWhitespace).reverse

/-- Helper of `splitOn`: prepend a character to the first piece. -/
def consHead (c : Char) : List (List Char) → List (List Char)
  | [] => [[c]]
  | t :: ts => (c :: t) :: ts

/-- Does `pre` lead the list `l`? (Python `str.startswith`, used to model
`str.split`.) -/
def leadsWith : List Char → List Char → Bool
  | [], _ => true
  | _ :: _, [] => false
  | a :: s, b :: t => a = b && leadsWith s t

/-- Fuelled worker for `splitOn`; the fuel is an upper bound on the text
length, consumed one character (or one separator occurrence) at a time. -/
def splitOnFuel (sep : List Char) : ℕ → List Char → List (List Char)
  | 0, text => [text]
  | fuel + 1, text =>
    if !sep.isEmpty && leadsWith sep text then
      [] :: splitOnFuel sep fuel (text.drop sep.length)
    else
      match text with
      | [] => [[]]
      | c :: rest => consHead c (splitOnFuel sep fuel rest)

/-- Python `text.split(separator)` for a non-empty separator: the pieces
between the non-overlapping left-to-right occurrences of `sep` (empty pieces
kept, `[""]` on empty text). -/
def splitOn (sep text : List Char) : List (List Char) :=
  splitOnFuel sep text.length text

/-- The empty-separator fallback of `_split_recursive`:
`[text[i:i+chunk_size] for i in range(0, len(text), chunk_size)]`
(fixed-size character windows; `chunk_size = 0` would raise in Python and is
excluded by the theorems that touch this branch). -/
def charWindows (chunk_size : ℕ) (text : List Char) : List (List Char) :=
  (List.range ((text.length + chunk_size - 1) / chunk_size)).map
    (fun i => (text.drop (i * chunk_size)).take chunk_size)

/-- `_split_recursive` from `chunker.chunk_text`: split on the first
separator; keep a piece whose token count fits the budget, otherwise recurse
into it with the remaining separators; the empty separator does a fixed-size
character-window split; pieces that trim to nothing are dropped; empty or
whitespace-only text gives no pieces.  `tc` is the opaque
`len(tiktoken.encode ·)` token counter. -/
def split_recursive (tc : List Char → ℕ) (chunk_size : ℕ) :
    List (List Char) → List Char → List (List Char)
  | [], text => if trim text = [] then [] else [text]
  | sep :: rest, text =>
    if trim text = [] then []
    else if sep = [] then charWindows chunk_size text
    else (splitOn sep text).flatMap (fun s =>
      if trim s = [] then []
      else if tc s ≤ chunk_size then [s]
      else split_recursive tc chunk_size rest s)

/-- The default separator hierarchy of `chunk_text`:
`["\n\n", "\n", ". ", " ", ""]`. -/
def defaultSeps : List (List Char) :=
  [['\n', '\n'], ['\n'], ['.', ' '], [' '], []]

/-- A chunk record as produced by `chunk_text`. -/
structure Chunk where
  chunk_id : ℕ
  text : List Char
  token_count : ℕ
  start_pos : ℕ
  end_pos : ℕ
deriving DecidableEq

/-- The final loop of `chunk_text`: enumerate the raw pieces, strip each,
skip the ones that strip to nothing, and build the chunk records while
accumulating the position counter. -/
def buildChunks (tc : List Char → ℕ) : List (List Char) → ℕ → ℕ → List Chunk
  | [], _, _ => []
  | c :: cs, i, pos =>
    let t := trim c
    if t = [] then buildChunks tc cs (i + 1) pos
    else ⟨i, t, tc t, pos, pos + t.length⟩ :: buildChunks tc cs (i + 1) (pos + t.length)

/-- `chunker.chunk_text` with the default separators (the `separators=None`
case used throughout the repository): recursively split, then strip,
enumerate and annotate the surviving pieces. -/
def chunk_text (tc : List Char → ℕ) (chunk_size : ℕ) (text : List Char) :
    List Chunk :=
  buildChunks tc (split_recursive tc chunk_size defaultSeps text) 0 0

/-! ### Properties of the stable descending sort -/

theorem mem_insDesc {key : α → ℚ} {x a : α} {l : List α} :
    a ∈ insDesc key x l ↔ a = x ∨ a ∈ l := by
  induction l with
  | nil => simp [insDesc]
  | cons y ys ih =>
    by_cases h : key y < key x
    · simp [insDesc, h]
    · simp [insDesc, h, ih]
      tauto

theorem insDesc_perm (key : α → ℚ) (x : α) (l : List α) :
    insDesc key x l ~ x :: l := by
  induction l with
  | nil => simp [insDesc]
  | cons y ys ih =>
    by_cases h : key y < key x
    · simp [insDesc, h]
    · simp only [insDesc, h, if_false]
      exact (ih.cons y).trans (List.Perm.swap x y ys)

theorem foldl_insDesc_perm (key : α → ℚ) :
    ∀ (l acc : List α), l.foldl (fun acc y => insDesc key y acc) acc ~ l ++ acc := by
  intro l
  induction l with
  | nil => intro acc; simp
  | cons x l ih =>
    intro acc
    calc (x :: l).foldl (fun acc y => insDesc key y acc) acc
        = l.foldl (fun acc y => insDesc key y acc) (insDesc key x acc) := rfl
      _ ~ l ++ insDesc key x acc := ih _
      _ ~ l ++ (x :: acc) := List.Perm.append_left l (insDesc_perm key x acc)
      _ ~ x :: (l ++ acc) := List.perm_middle
      _ = (x :: l) ++ acc := rfl

theorem stableSortDesc_perm (key : α → ℚ) (l : List α) :
    stableSortDesc key l ~ l := by
  simpa [stableSortDesc] using foldl_insDesc_perm key l []

theorem insDesc_sorted {key : α → ℚ} {x : α} {l : List α}
    (h : l.Pairwise (fun a b => key b ≤ key a)) :
    (insDesc key x l).Pairwise (fun a b => key b ≤ key a) := by
  induction l with
  | nil => simp [insDesc]
  | cons y ys ih =>
    rcases List.pairwise_cons.mp h with ⟨hy, hys⟩
    by_cases hlt : key y < key x
    · simp only [insDesc, hlt, if_true]
      refine List.pairwise_cons.mpr ⟨?_, h⟩
      intro z hz
      rcases List.mem_cons.mp hz with rfl | hz
      · exact le_of_lt hlt
      · exact le_trans (hy z hz) (le_of_lt hlt)
    · simp only [insDesc, hlt, if_false]
      refine List.pairwise_cons.mpr ⟨?_, ih hys⟩
      intro z hz
      rcases mem_insDesc.mp hz with rfl | hz
      · exact not_lt.mp hlt
      · exact hy z hz

theorem stableSortDesc_sorted (key : α → ℚ) (l : List α) :
    (stableSortDesc key l).Pairwise (fun a b => key b ≤ key a) := by
  suffices h : ∀ (l acc : List α), acc.Pairwise (fun a b => key b ≤ key a) →
      (l.foldl (fun acc y => insDesc key y acc) acc).Pairwise (fun a b => key b ≤ key a) by
    exact h l [] (List.Pairwise.nil)
  intro l
  induction l with
  | nil => intro acc h; exact h
  | cons x l ih => intro acc h; exact ih _ (insDesc_sorted h)

theorem insDesc_append {key : α → ℚ} {x : α} {l : List α}
    (h : ∀ y ∈ l, key x ≤ key y) : insDesc key x l = l ++ [x] := by
  induction l with
  | nil => rfl
  | cons y ys ih =>
    have : ¬ key y < key x := not_lt.mpr (h y (List.mem_cons_self y ys))
    simp only [insDesc, this, if_false, List.cons_append, List.cons.injEq, true_and]
    exact ih (fun z hz => h z (List.mem_cons_of_mem y hz))

theorem stableSortDesc_eq_self {key : α → ℚ} {l : List α}
    (h : l.Pairwise (fun a b => key b ≤ key a)) : stableSortDesc key l = l := by
  suffices haux : ∀ (l acc : List α), acc.Pairwise (fun a b => key b ≤ key a) →
      l.Pairwise (fun a b => key b ≤ key a) →
      (∀ y ∈ acc, ∀ z ∈ l, key z ≤ key y) →
      l.foldl (fun acc y => insDesc key y acc) acc = acc ++ l by
    simpa [stableSortDesc] using haux l [] List.Pairwise.nil h (by simp)
  intro l
  induction l with
  | nil => intro acc _ _ _; simp
  | cons x l ih =>
    intro acc hacc hl hcross
    rcases List.pairwise_cons.mp hl with ⟨hx, hl'⟩
    have hins : insDesc key x acc = acc ++ [x] :=
      insDesc_append (fun y hy => hcross y hy x (List.mem_cons_self x l))
    have hacc' : (acc ++ [x]).Pairwise (fun a b => key b ≤ key a) := by
      refine List.pairwise_append.mpr ⟨hacc, List.pairwise_singleton _ _, ?_⟩
      intro y hy z hz
      rcases List.mem_singleton.mp hz with rfl
      exact hcross y hy z (List.mem_cons_self z l)
    have hcross' : ∀ y ∈ acc ++ [x], ∀ z ∈ l, key z ≤ key y := by
      intro y hy z hz
      rcases List.mem_append.mp hy with hy | hy
      · exact hcross y hy z (List.mem_cons_of_mem x hz)
      · rcases List.mem_singleton.mp hy with rfl
        exact hx z hz
    calc (x :: l).foldl (fun acc y => insDesc key y acc) acc
        = l.foldl (fun acc y => insDesc key y acc) (insDesc key x acc) := rfl
      _ = l.foldl (fun acc y => insDesc key y acc) (acc ++ [x]) := by rw [hins]
      _ = (acc ++ [x]) ++ l := ih _ hacc' hl' hcross'
      _ = acc ++ (x :: l) := by simp

/-- The stability property of the sort: if the input is linearly pre-ordered
by a tie-break relation `R`, the output is ordered by the lexicographic
(key descending, then `R`) relation. -/
theorem insDesc_lex {key : α → ℚ} {R : α → α → Prop} {x : α} {l : List α}
    (h : l.Pairwise (fun a b => key b < key a ∨ (key a = key b ∧ R a b)))
    (hR : ∀ y ∈ l, R y x) :
    (insDesc key x l).Pairwise (fun a b => key b < key a ∨ (key a = key b ∧ R a b)) := by
  induction l with
  | nil => simp [insDesc]
  | cons y ys ih =>
    rcases List.pairwise_cons.mp h with ⟨hy, hys⟩
    by_cases hlt : key y < key x
    · simp only [insDesc, hlt, if_true]
      refine List.pairwise_cons.mpr ⟨?_, h⟩
      intro z hz
      rcases List.mem_cons.mp hz with rfl | hz
      · exact Or.inl hlt
      · refine Or.inl (lt_of_le_of_lt ?_ hlt)
        rcases hy z hz with h' | h'
        · exact le_of_lt h'
        · exact le_of_eq h'.1.symm
    · simp only [insDesc, hlt, if_false]
      refine List.pairwise_cons.mpr ⟨?_, ih hys (fun z hz => hR z (List.mem_cons_of_mem y hz))⟩
      intro z hz
      rcases mem_insDesc.mp hz with rfl | hz
      · rcases lt_or_eq_of_le (not_lt.mp hlt) with h' | h'
        · exact Or.inl h'
        · exact Or.inr ⟨h'.symm, hR y (List.mem_cons_self y ys)⟩
      · exact hy z hz

theorem stableSortDesc_lex {key : α → ℚ} {R : α → α → Prop} {l : List α}
    (hR : l.Pairwise R) :
    (stableSortDesc key l).Pairwise
      (fun a b => key b < key a ∨ (key a = key b ∧ R a b)) := by
  suffices haux : ∀ (l acc : List α), l.Pairwise R →
      acc.Pairwise (fun a b => key b < key a ∨ (key a = key b ∧ R a b)) →
      (∀ y ∈ acc, ∀ z ∈ l, R y z) →
      (l.foldl (fun acc y => insDesc key y acc) acc).Pairwise
        (fun a b => key b < key a ∨ (key a = key b ∧ R a b)) by
    exact haux l [] hR List.Pairwise.nil (by simp)
  intro l
  induction l with
  | nil => intro acc _ hacc _; exact hacc
  | cons x l ih =>
    intro acc hl hacc hcross
    rcases List.pairwise_cons.mp hl with ⟨hx, hl'⟩
    refine ih (insDesc key x acc) hl' ?_ ?_
    · exact insDesc_lex hacc (fun y hy => hcross y hy x (List.mem_cons_self x l))
    · intro y hy z hz
      rcases mem_insDesc.mp hy with rfl | hy
      · exact hx z hz
      · exact hcross y hy z (List.mem_cons_of_mem x hz)

/-- A sorted permutation of "strictly decreasing positive part `P` followed by
zero-key part `Z`" is exactly `P` followed by some permutation of `Z`. -/
theorem sorted_perm_split {key : α → ℚ} :
    ∀ (P : List α) {Z l : List α},
      P.Pairwise (fun a b => key b < key a) → (∀ a ∈ P, 0 < key a) →
      (∀ a ∈ Z, key a = 0) → l ~ P ++ Z →
      l.Pairwise (fun a b => key b ≤ key a) →
      ∃ Zp, l = P ++ Zp ∧ Zp ~ Z := by
  intro P
  induction P with
  | nil =>
    intro Z l _ _ _ hperm _
    exact ⟨l, rfl, by simpa using hperm⟩
  | cons p P ih =>
    intro Z l hP hPpos hZ hperm hsort
    rcases List.pairwise_cons.mp hP with ⟨hp, hP'⟩
    have hlen : l ≠ [] := by
      intro h
      have := hperm.length_eq
      simp [h] at this
    rcases l with _ | ⟨h, t⟩
    · exact absurd rfl hlen
    rcases List.pairwise_cons.mp hsort with ⟨hh, ht⟩
    have hhm : h ∈ p :: (P ++ Z) := hperm.mem_iff.mp (List.mem_cons_self h t)
    have hpm : p ∈ h :: t := hperm.mem_iff.mpr (List.mem_cons_self p (P ++ Z))
    have hkey : key h = key p := by
      have h1 : key h ≤ key p := by
        rcases List.mem_cons.mp hhm with rfl | hm
        · rfl
        rcases List.mem_append.mp hm with hm | hm
        · exact le_of_lt (hp h hm)
        · rw [hZ h hm]; exact le_of_lt (hPpos p (List.mem_cons_self p P))
      have h2 : key p ≤ key h := by
        rcases List.mem_cons.mp hpm with rfl | hm
        · rfl
        · exact hh p hm
      exact le_antisymm h1 h2
    have heq : h = p := by
      rcases List.mem_cons.mp hhm with h' | hm
      · exact h'
      rcases List.mem_append.mp hm with hm | hm
      · exact absurd hkey (ne_of_lt (hp h hm))
      · exfalso
        have hz0 := hZ h hm
        rw [hz0] at hkey
        exact absurd hkey.symm (ne_of_gt (hPpos p (List.mem_cons_self p P)))
    subst heq
    have hperm' : t ~ P ++ Z := (hperm.cons_inv)
    rcases ih hP' (fun a ha => hPpos a (List.mem_cons_of_mem _ ha)) hZ hperm' ht with
      ⟨Zp, rfl, hZp⟩
    exact ⟨Zp, rfl, hZp⟩

/-! ### Characterization of the RRF fusion dictionary -/

theorem rrfContribFrom_cons_ne {x c : ℕ} {xs : List ℕ} {r : ℕ} (h : x ≠ c) :
    rrfContribFrom r (x :: xs) c = rrfContribFrom (r + 1) xs c := by
  simp [rrfContribFrom, h]

theorem rrfContribFrom_eq_zero {c : ℕ} {l : List ℕ} (h : c ∉ l) :
    ∀ r, rrfContribFrom r l c = 0 := by
  induction l with
  | nil => intro r; rfl
  | cons x xs ih =>
    intro r
    have hx : x ≠ c := fun hxc => h (hxc ▸ List.mem_cons_self x xs)
    rw [rrfContribFrom_cons_ne hx]
    exact ih (fun hc => h (List.mem_cons_of_mem x hc)) (r + 1)

theorem rrfContribFrom_head (r : ℕ) (c : ℕ) (xs : List ℕ) :
    rrfContribFrom r (c :: xs) c = 1 / (60 + (r : ℚ)) := by
  simp [rrfContribFrom]

theorem rrf_inv_lt (r : ℕ) : 1 / (60 + ((r + 1 : ℕ) : ℚ)) < 1 / (60 + (r : ℚ)) := by
  have h1 : (0 : ℚ) < 60 + ((r + 1 : ℕ) : ℚ) := by positivity
  have h2 : (0 : ℚ) < 60 + (r : ℚ) := by positivity
  rw [div_lt_div_iff₀ h1 h2]
  push_cast
  linarith

theorem rrfContribFrom_le (l : List ℕ) (c : ℕ) :
    ∀ r, rrfContribFrom r l c ≤ 1 / (60 + (r : ℚ)) := by
  induction l with
  | nil =>
    intro r
    simp only [rrfContribFrom]
    positivity
  | cons x xs ih =>
    intro r
    by_cases h : x = c
    · simp [rrfContribFrom, h]
    · rw [rrfContribFrom_cons_ne h]
      exact le_trans (ih (r + 1)) (le_of_lt (rrf_inv_lt r))

theorem rrfContribFrom_pos {c : ℕ} {l : List ℕ} (h : c ∈ l) :
    ∀ r, 0 < rrfContribFrom r l c := by
  induction l with
  | nil => cases h
  | cons x xs ih =>
    intro r
    by_cases hx : x = c
    · simp only [rrfContribFrom, hx, if_true]
      positivity
    · rw [rrfContribFrom_cons_ne hx]
      exact ih (List.mem_cons.mp h |>.resolve_left (fun h' => hx h'.symm)) (r + 1)

theorem rrfContribFrom_pairwise {l : List ℕ} (hl : l.Nodup) :
    ∀ r, l.Pairwise (fun a b => rrfContribFrom r l b < rrfContribFrom r l a) := by
  induction l with
  | nil => intro r; exact List.Pairwise.nil
  | cons x xs ih =>
    intro r
    rcases List.pairwise_cons.mp hl with ⟨hx, hxs⟩
    refine List.pairwise_cons.mpr ⟨?_, ?_⟩
    · intro z hz
      have hzx : x ≠ z := fun h => hx z hz h
      rw [rrfContribFrom_cons_ne hzx, rrfContribFrom_head]
      exact lt_of_le_of_lt (rrfContribFrom_le xs z (r + 1)) (rrf_inv_lt r)
    · refine (ih hxs (r + 1)).imp_of_mem ?_
      intro a b ha hb hab
      have hxa : x ≠ a := fun h => hx a ha h
      have hxb : x ≠ b := fun h => hx b hb h
      rw [rrfContribFrom_cons_ne hxa, rrfContribFrom_cons_ne hxb]
      exact hab

theorem setBm_fresh {c : ℕ} {v : ℚ} {st : List FEntry}
    (h : ∀ e ∈ st, e.cid ≠ c) : setBm c v st = st ++ [⟨c, v, 0⟩] := by
  induction st with
  | nil => rfl
  | cons e es ih =>
    have he : e.cid ≠ c := h e (List.mem_cons_self e es)
    simp only [setBm, he, if_false, List.cons_append, List.cons.injEq, true_and]
    exact ih (fun e' he' => h e' (List.mem_cons_of_mem e he'))

theorem setEmb_fresh {c : ℕ} {v : ℚ} {st : List FEntry}
    (h : ∀ e ∈ st, e.cid ≠ c) : setEmb c v st = st ++ [⟨c, 0, v⟩] := by
  induction st with
  | nil => rfl
  | cons e es ih =>
    have he : e.cid ≠ c := h e (List.mem_cons_self e es)
    simp only [setEmb, he, if_false, List.cons_append, List.cons.injEq, true_and]
    exact ih (fun e' he' => h e' (List.mem_cons_of_mem e he'))

theorem setEmb_mem {c : ℕ} {v : ℚ} {st : List FEntry}
    (hnd : (st.map FEntry.cid).Nodup) (h : c ∈ st.map FEntry.cid) :
    setEmb c v st = st.map (fun e => if e.cid = c then ⟨e.cid, e.bm, v⟩ else e) := by
  induction st with
  | nil => cases h
  | cons e es ih =>
    simp only [List.map_cons, List.nodup_cons] at hnd
    by_cases he : e.cid = c
    · simp only [setEmb, he, if_pos rfl, if_true, List.map_cons, he]
      have hmapid : es.map (fun e => if e.cid = c then (⟨e.cid, e.bm, v⟩ : FEntry) else e) = es := by
        rw [List.map_congr_left, List.map_id]
        intro a ha
        have hane : a.cid ≠ c := by
          intro hac
          apply hnd.1
          rw [he, ← hac]
          exact List.mem_map_of_mem FEntry.cid ha
        simp [hane]
      rw [hmapid]
    · have hces : c ∈ es.map FEntry.cid := by
        rcases List.mem_cons.mp h with h' | h'
        · exact absurd h'.symm he
        · exact h'
      simp only [setEmb, he, if_false, List.map_cons]
      rw [ih hnd.2 hces]

theorem map_cid_setEmb (c : ℕ) (v : ℚ) (st : List FEntry) :
    (setEmb c v st).map FEntry.cid =
      if c ∈ st.map FEntry.cid then st.map FEntry.cid else st.map FEntry.cid ++ [c] := by
  induction st with
  | nil => simp [setEmb]
  | cons e es ih =>
    by_cases he : e.cid = c
    · simp [setEmb, he]
    · have hne : c ≠ e.cid := fun h => he h.symm
      simp only [setEmb, he, if_false, List.map_cons, ih, List.mem_cons]
      by_cases hc : c ∈ es.map FEntry.cid
      · simp [hc, hne]
      · simp [hc, hne]

theorem bmPhase_eq : ∀ (L : List ℕ) (r : ℕ) (st : List FEntry), L.Nodup →
    (∀ c ∈ L, ∀ e ∈ st, e.cid ≠ c) →
    bmPhase L r st = st ++ L.map (fun c => ⟨c, rrfContribFrom r L c, 0⟩) := by
  intro L
  induction L with
  | nil => intro r st _ _; simp [bmPhase]
  | cons c cs ih =>
    intro r st hnd hfresh
    rcases List.pairwise_cons.mp hnd with ⟨hc, hcs⟩
    have hset : setBm c (1 / (60 + (r : ℚ))) st = st ++ [⟨c, 1 / (60 + (r : ℚ)), 0⟩] :=
      setBm_fresh (hfresh c (List.mem_cons_self c cs))
    have hfresh' : ∀ c' ∈ cs, ∀ e ∈ st ++ [⟨c, 1 / (60 + (r : ℚ)), 0⟩], e.cid ≠ c' := by
      intro c' hc' e he
      rcases List.mem_append.mp he with he | he
      · exact hfresh c' (List.mem_cons_of_mem c hc') e he
      · rcases List.mem_singleton.mp he with rfl
        exact hc c' hc'
    calc bmPhase (c :: cs) r st
        = bmPhase cs (r + 1) (st ++ [⟨c, 1 / (60 + (r : ℚ)), 0⟩]) := by
          simp only [bmPhase, hset]
      _ = (st ++ [⟨c, 1 / (60 + (r : ℚ)), 0⟩]) ++
            cs.map (fun c' => ⟨c', rrfContribFrom (r + 1) cs c', 0⟩) := ih (r + 1) _ hcs hfresh'
      _ = st ++ (c :: cs).map (fun c' => ⟨c', rrfContribFrom r (c :: cs) c', 0⟩) := by
          rw [List.append_assoc]
          congr 1
          simp only [List.map_cons, List.singleton_append, List.cons.injEq]
          constructor
          · simp [rrfContribFrom]
          · refine (List.map_congr_left ?_).symm
            intro a ha
            have : c ≠ a := fun h => hc a ha h
            rw [rrfContribFrom_cons_ne this]

theorem embPhase_eq : ∀ (S : List ℕ) (r : ℕ) (E : List FEntry), S.Nodup →
    (E.map FEntry.cid).Nodup →
    embPhase S r E =
      E.map (fun e => ⟨e.cid, e.bm,
        if e.cid ∈ S then rrfContribFrom r S e.cid else e.emb⟩) ++
      (S.filter (fun c => decide (c ∉ E.map FEntry.cid))).map
        (fun c => ⟨c, 0, rrfContribFrom r S c⟩) := by
  intro S
  induction S with
  | nil =>
    intro r E _ _
    simp only [embPhase, List.not_mem_nil, if_false, List.filter_nil, List.map_nil,
      List.append_nil]
    have hid : E.map (fun e => (⟨e.cid, e.bm, e.emb⟩ : FEntry)) = E := by
      rw [List.map_congr_left (g := id), List.map_id]
      intro a _
      rfl
    exact hid.symm
  | cons s S' ih =>
    intro r E hnd hEnd
    rcases List.pairwise_cons.mp hnd with ⟨hs, hS'⟩
    have hsS' : s ∉ S' := fun h => hs s h rfl
    by_cases hmem : s ∈ E.map FEntry.cid
    · have hset := setEmb_mem (v := 1 / (60 + (r : ℚ))) hEnd hmem
      have hcid : (setEmb s (1 / (60 + (r : ℚ))) E).map FEntry.cid = E.map FEntry.cid := by
        rw [map_cid_setEmb, if_pos hmem]
      have := ih (r + 1) (setEmb s (1 / (60 + (r : ℚ))) E) hS' (hcid ▸ hEnd)
      calc embPhase (s :: S') r E
          = embPhase S' (r + 1) (setEmb s (1 / (60 + (r : ℚ))) E) := rfl
        _ = _ := this
        _ = _ := by
          rw [hcid, hset, List.map_map]
          congr 1
          · refine List.map_congr_left ?_
            intro e _
            simp only [Function.comp_apply]
            by_cases hes : e.cid = s
            · have h1 : e.cid ∈ s :: S' := hes ▸ List.mem_cons_self s S'
              have h2 : e.cid ∉ S' := hes ▸ hsS'
              simp only [if_pos hes, if_neg (hes ▸ hsS'), if_pos h1]
              simp [rrfContribFrom, hes]
            · simp only [if_neg hes]
              by_cases heS' : e.cid ∈ S'
              · have h1 : e.cid ∈ s :: S' := List.mem_cons_of_mem s heS'
                simp only [if_pos heS', if_pos h1]
                rw [rrfContribFrom_cons_ne (fun h => hes h.symm)]
              · simp [hes, heS']
          · have hfil : S'.filter (fun c => decide (c ∉ E.map FEntry.cid)) =
                (s :: S').filter (fun c => decide (c ∉ E.map FEntry.cid)) := by
              simp only [List.filter_cons, decide_eq_true_eq]
              rw [if_neg (by simp [hmem])]
            rw [← hfil]
            refine List.map_congr_left ?_
            intro a ha
            have haS' : a ∈ S' := List.mem_of_mem_filter ha
            have : s ≠ a := fun h => hsS' (h ▸ haS')
            rw [rrfContribFrom_cons_ne this]
    · have hset := @setEmb_fresh s (1 / (60 + (r : ℚ)))
        E (fun e he hec => hmem (hec ▸ List.mem_map_of_mem FEntry.cid he))
      have hcid : ((E ++ [(⟨s, 0, 1 / (60 + (r : ℚ))⟩ : FEntry)]).map FEntry.cid).Nodup := by
        simp only [List.map_append, List.map_cons, List.map_nil]
        rw [List.nodup_append]
        exact ⟨hEnd, List.nodup_singleton s, by simpa using fun h => hmem h⟩
      have := ih (r + 1) (E ++ [(⟨s, 0, 1 / (60 + (r : ℚ))⟩ : FEntry)]) hS' hcid
      calc embPhase (s :: S') r E
          = embPhase S' (r + 1) (E ++ [(⟨s, 0, 1 / (60 + (r : ℚ))⟩ : FEntry)]) := by
            simp only [embPhase, hset]
        _ = _ := this
        _ = _ := by
          rw [List.map_append, List.append_assoc]
          congr 1
          · refine List.map_congr_left ?_
            intro e he
            have hes : e.cid ≠ s := fun h => hmem (h ▸ List.mem_map_of_mem FEntry.cid he)
            by_cases heS' : e.cid ∈ S'
            · have h1 : e.cid ∈ s :: S' := List.mem_cons_of_mem s heS'
              simp only [if_pos heS', if_pos h1]
              rw [rrfContribFrom_cons_ne (fun h => hes h.symm)]
            · simp [hes, heS']
          · have hfil : (s :: S').filter (fun c => decide (c ∉ E.map FEntry.cid)) =
                s :: S'.filter (fun c => decide (c ∉ E.map FEntry.cid)) := by
              simp only [List.filter_cons, decide_eq_true_eq]
              rw [if_pos (by simpa using hmem)]
            rw [hfil]
            simp only [List.map_cons, List.map_nil, List.singleton_append,
              List.map_map]
            have hs0 : rrfContribFrom r (s :: S') s = 1 / (60 + (r : ℚ)) := by
              simp [rrfContribFrom]
            rw [hs0]
            have hfil2 : S'.filter
                (fun c => decide (c ∉ (E ++ [(⟨s, 0, 1 / (60 + (r : ℚ))⟩ : FEntry)]).map FEntry.cid)) =
                S'.filter (fun c => decide (c ∉ E.map FEntry.cid)) := by
              refine List.filter_congr ?_
              intro a ha
              have : a ≠ s := fun h => hsS' (h ▸ ha)
              simp only [List.map_append, List.map_cons, List.map_nil, List.mem_append,
                List.mem_singleton, decide_eq_decide]
              simp [this]
            rw [hfil2]
            congr 1
            · simp [hsS']
            · refine List.map_congr_left ?_
              intro a ha
              have haS' : a ∈ S' := List.mem_of_mem_filter ha
              have : s ≠ a := fun h => hsS' (h ▸ haS')
              rw [rrfContribFrom_cons_ne this]

theorem rrf_entries_eq {L S : List ℕ} (hL : L.Nodup) (hS : S.Nodup) :
    rrf_entries L S =
      (L ++ S.filter (fun c => decide (c ∉ L))).map
        (fun c => ⟨c, rrfContrib L c, rrfContrib S c⟩) := by
  have hbm : bmPhase L 1 [] = L.map (fun c => ⟨c, rrfContribFrom 1 L c, 0⟩) := by
    rw [bmPhase_eq L 1 [] hL (by simp)]
    simp
  have hcids : (bmPhase L 1 []).map FEntry.cid = L := by
    rw [hbm, List.map_map]
    simp [Function.comp_def]
  have hnd : ((bmPhase L 1 []).map FEntry.cid).Nodup := by rw [hcids]; exact hL
  unfold rrf_entries
  rw [embPhase_eq S 1 _ hS hnd, hcids, hbm, List.map_map, List.map_append]
  congr 1
  · refine List.map_congr_left ?_
    intro c _
    simp only [Function.comp_apply]
    by_cases hc : c ∈ S
    · simp [rrfContrib, hc]
    · simp [rrfContrib, hc, rrfContribFrom_eq_zero hc 1]
  · refine List.map_congr_left ?_
    intro c hcf
    have hcL : c ∉ L := by
      have hm := List.mem_filter.mp hcf
      simpa using hm.2
    simp [rrfContrib, rrfContribFrom_eq_zero hcL 1]

theorem fst_comp_pair {β : Type} (g : ℕ → β) :
    ∀ l : List ℕ, (l.map (fun c => (c, g c))).map Prod.fst = l := by
  intro l
  rw [List.map_map]
  simp [Function.comp_def]

/-- Common ending of both halves of the alpha-boundary argument: taking
`top_k` from a list that starts with the candidate block `P` (whose chunks
are exactly `M` in order) followed by out-of-candidate-set entries, then
restricting to `M`, yields the first `top_k` of `M`. -/
theorem filter_take_append {P Zp : List (ℕ × ℚ)} {M : List ℕ} (k : ℕ)
    (hP : P.map Prod.fst = M) (hZ : ∀ a ∈ Zp, a.1 ∉ M) :
    (((P ++ Zp).take k).map Prod.fst).filter (fun c => decide (c ∈ M)) = M.take k := by
  rw [List.take_append_eq_append_take, List.map_append, List.filter_append]
  have h1 : ((P.take k).map Prod.fst).filter (fun c => decide (c ∈ M)) = M.take k := by
    rw [List.map_take, hP]
    refine List.filter_eq_self.mpr ?_
    intro a ha
    simpa using List.mem_of_mem_take ha
  have h2 : ((Zp.take (k - P.length)).map Prod.fst).filter (fun c => decide (c ∈ M)) = [] := by
    refine List.filter_eq_nil_iff.mpr ?_
    intro b hb
    rcases List.mem_map.mp hb with ⟨a, ha, rfl⟩
    simpa using hZ a (List.mem_of_mem_take ha)
  rw [h1, h2, List.append_nil]

theorem append_filter_perm {L S : List ℕ} (hL : L.Nodup) (hS : S.Nodup) :
    (L ++ S.filter (fun c => decide (c ∉ L))) ~
      (S ++ L.filter (fun c => decide (c ∉ S))) := by
  refine (List.perm_ext_iff_of_nodup ?_ ?_).mpr ?_
  · refine hL.append (hS.filter _) ?_
    intro a haL haF
    have hm := List.mem_filter.mp haF
    exact absurd haL (by simpa using hm.2)
  · refine hS.append (hL.filter _) ?_
    intro a haS haF
    have hm := List.mem_filter.mp haF
    exact absurd haS (by simpa using hm.2)
  · intro a
    simp only [List.mem_append, List.mem_filter, decide_eq_true_eq]
    tauto

/-- C1 (amended): for duplicate-free candidate lists, `HybridRetriever.search`
returns exactly the ranking described by reciprocal rank fusion — every unique
candidate (zero fused score included: the code filters nothing), with fused
score `alpha * semantic_contribution + (1 - alpha) * lexical_contribution`
where the contribution of the chunk at 1-based rank `r` of a list is
`1 / (60 + r)` and absent chunks contribute `0`, sorted descending by fused
score with ties broken by insertion order into the fusion mapping
(lexical-list order first, then semantic-only additions), truncated to
`top_k`. -/
theorem claim_C1 (L S : List ℕ) (alpha : ℚ) (k : ℕ) (hL : L.Nodup) (hS : S.Nodup) :
    HybridRetriever.search L S alpha k = HybridRetriever.searchSpec L S alpha k := by
  unfold HybridRetriever.search HybridRetriever.searchSpec rrfSpecPairs
  rw [rrf_entries_eq hL hS, List.map_map]
  rfl

/-- C1 counterexample to the claim as stated: with lexical candidates `[0]`,
semantic candidates `[1]` and `alpha = 0`, chunk `1` has fused score `0`, yet
it appears in the output — the code does not restrict the output to chunks
with nonzero fused score. -/
theorem claim_C1_counterexample :
    HybridRetriever.search [0] [1] 0 2 = [(0, (1 : ℚ)/61), (1, 0)] ∧
      (1, (0 : ℚ)) ∈ HybridRetriever.search [0] [1] 0 2 := by
  have h : HybridRetriever.search [0] [1] 0 2 = [(0, (1 : ℚ)/61), (1, 0)] := by
    with_unfolding_all rfl
  refine ⟨h, ?_⟩
  rw [h]
  exact List.mem_cons_of_mem _ (List.mem_cons_self _ _)

/-- C1 witness: the amended fusion characterization at concrete input. -/
theorem claim_C1_witness :
    HybridRetriever.search [0, 1] [1, 2] (1/2) 5 =
      HybridRetriever.searchSpec [0, 1] [1, 2] (1/2) 5 :=
  claim_C1 [0, 1] [1, 2] (1/2) 5 (by decide) (by decide)

/-- C4 (amended): for duplicate-free candidate lists — always true of the
lexical list, and true of the semantic list exactly when the corpus has at
least `embedding_k` chunks so FAISS produces no padding duplicates — the
hybrid ranking with `alpha = 0` restricted to the lexical candidate list is
exactly the lexical ranking (truncated to `top_k`), and with `alpha = 1`
restricted to the semantic candidate list it is exactly the semantic
ranking. -/
theorem claim_C4 (L S : List ℕ) (k : ℕ) (hL : L.Nodup) (hS : S.Nodup) :
    ((HybridRetriever.search L S 0 k).map Prod.fst).filter
        (fun c => decide (c ∈ L)) = L.take k ∧
      ((HybridRetriever.search L S 1 k).map Prod.fst).filter
        (fun c => decide (c ∈ S)) = S.take k := by
  constructor
  · have hpairs : (rrf_entries L S).map
        (fun e => (e.cid, (0 : ℚ) * e.emb + (1 - 0) * e.bm)) =
        L.map (fun c => (c, rrfContrib L c)) ++
          (S.filter (fun c => decide (c ∉ L))).map (fun c => (c, rrfContrib L c)) := by
      rw [rrf_entries_eq hL hS, List.map_map, List.map_append]
      congr 1 <;> exact List.map_congr_left (fun c _ => by simp)
    have hPpw : (L.map (fun c => (c, rrfContrib L c))).Pairwise
        (fun a b => b.2 < a.2) := by
      refine List.pairwise_map.mpr ?_
      exact rrfContribFrom_pairwise hL 1
    have hPpos : ∀ a ∈ L.map (fun c => (c, rrfContrib L c)), 0 < a.2 := by
      intro a ha
      rcases List.mem_map.mp ha with ⟨c, hc, rfl⟩
      exact rrfContribFrom_pos hc 1
    have hZ0 : ∀ a ∈ (S.filter (fun c => decide (c ∉ L))).map
        (fun c => (c, rrfContrib L c)), a.2 = 0 := by
      intro a ha
      rcases List.mem_map.mp ha with ⟨c, hc, rfl⟩
      have hcL : c ∉ L := by simpa using (List.mem_filter.mp hc).2
      exact rrfContribFrom_eq_zero hcL 1
    have hperm0 : stableSortDesc Prod.snd ((rrf_entries L S).map
        (fun e => (e.cid, (0 : ℚ) * e.emb + (1 - 0) * e.bm))) ~
        L.map (fun c => (c, rrfContrib L c)) ++
          (S.filter (fun c => decide (c ∉ L))).map (fun c => (c, rrfContrib L c)) := by
      refine (stableSortDesc_perm _ _).trans ?_
      rw [hpairs]
    obtain ⟨Zp, hsplit, hZp⟩ := sorted_perm_split _ hPpw hPpos hZ0 hperm0
      (stableSortDesc_sorted _ _)
    show (((stableSortDesc Prod.snd ((rrf_entries L S).map
        (fun e => (e.cid, (0 : ℚ) * e.emb + (1 - 0) * e.bm)))).take k).map
          Prod.fst).filter (fun c => decide (c ∈ L)) = L.take k
    rw [hsplit]
    refine filter_take_append k (fst_comp_pair _ _) ?_
    intro a ha
    rcases List.mem_map.mp (hZp.mem_iff.mp ha) with ⟨c, hc, rfl⟩
    simpa using (List.mem_filter.mp hc).2
  · have hpairs : (rrf_entries L S).map
        (fun e => (e.cid, (1 : ℚ) * e.emb + (1 - 1) * e.bm)) =
        (L ++ S.filter (fun c => decide (c ∉ L))).map
          (fun c => (c, rrfContrib S c)) := by
      rw [rrf_entries_eq hL hS, List.map_map]
      exact List.map_congr_left (fun c _ => by simp)
    have hperm : (L ++ S.filter (fun c => decide (c ∉ L))).map
        (fun c => (c, rrfContrib S c)) ~
        S.map (fun c => (c, rrfContrib S c)) ++
          (L.filter (fun c => decide (c ∉ S))).map (fun c => (c, rrfContrib S c)) := by
      rw [← List.map_append]
      exact (append_filter_perm hL hS).map _
    have hPpw : (S.map (fun c => (c, rrfContrib S c))).Pairwise
        (fun a b => b.2 < a.2) := by
      refine List.pairwise_map.mpr ?_
      exact rrfContribFrom_pairwise hS 1
    have hPpos : ∀ a ∈ S.map (fun c => (c, rrfContrib S c)), 0 < a.2 := by
      intro a ha
      rcases List.mem_map.mp ha with ⟨c, hc, rfl⟩
      exact rrfContribFrom_pos hc 1
    have hZ0 : ∀ a ∈ (L.filter (fun c => decide (c ∉ S))).map
        (fun c => (c, rrfContrib S c)), a.2 = 0 := by
      intro a ha
      rcases List.mem_map.mp ha with ⟨c, hc, rfl⟩
      have hcS : c ∉ S := by simpa using (List.mem_filter.mp hc).2
      exact rrfContribFrom_eq_zero hcS 1
    have hperm1 : stableSortDesc Prod.snd ((rrf_entries L S).map
        (fun e => (e.cid, (1 : ℚ) * e.emb + (1 - 1) * e.bm))) ~
        S.map (fun c => (c, rrfContrib S c)) ++
          (L.filter (fun c => decide (c ∉ S))).map (fun c => (c, rrfContrib S c)) := by
      refine (stableSortDesc_perm _ _).trans ?_
      rw [hpairs]
      exact hperm
    obtain ⟨Zp, hsplit, hZp⟩ := sorted_perm_split _ hPpw hPpos hZ0 hperm1
      (stableSortDesc_sorted _ _)
    show (((stableSortDesc Prod.snd ((rrf_entries L S).map
        (fun e => (e.cid, (1 : ℚ) * e.emb + (1 - 1) * e.bm)))).take k).map
          Prod.fst).filter (fun c => decide (c ∈ S)) = S.take k
    rw [hsplit]
    refine filter_take_append k (fst_comp_pair _ _) ?_
    intro a ha
    rcases List.mem_map.mp (hZp.mem_iff.mp ha) with ⟨c, hc, rfl⟩
    simpa using (List.mem_filter.mp hc).2

/-- C4 counterexample to the claim as stated: over a 2-chunk collection the
semantic retriever called with the default `embedding_k = 20` returns its
FAISS-padded candidate list `[1, 0]` followed by the duplicated last chunk at
ranks 3..20.  The second fusion loop overwrites chunk `1`'s `embedding_rrf`
at every pad occurrence, ending at `1/80 < 1/62`, so the `alpha = 1` hybrid
ranking is `[0, 1]` — it does not match the semantic ranking, which places
chunk `1` first (`[1, 0, ...]`). -/
theorem claim_C4_counterexample :
    (HybridRetriever.search [0, 1] ([1, 0] ++ List.replicate 18 1) 1 5).map
        Prod.fst = [0, 1] ∧
      ([1, 0] ++ List.replicate 18 1 : List ℕ).take 5 = [1, 0, 1, 1, 1] ∧
      (HybridRetriever.search [0, 1] ([1, 0] ++ List.replicate 18 1) 1 5).map
        Prod.fst ≠ [1, 0] := by
  have h : (HybridRetriever.search [0, 1] ([1, 0] ++ List.replicate 18 1) 1 5).map
      Prod.fst = [0, 1] := by
    with_unfolding_all rfl
  refine ⟨h, rfl, ?_⟩
  rw [h]
  decide

/-- C4 witness: the alpha-boundary equivalence at a concrete input. -/
theorem claim_C4_witness :
    ((HybridRetriever.search [0, 1] [1, 2] 0 3).map Prod.fst).filter
        (fun c => decide (c ∈ [0, 1])) = [0, 1] ∧
      ((HybridRetriever.search [0, 1] [1, 2] 1 3).map Prod.fst).filter
        (fun c => decide (c ∈ [1, 2])) = [1, 2] :=
  claim_C4 [0, 1] [1, 2] 3 (by decide) (by decide)

/-! ### Lexical retriever claims -/

/-- C5: `BM25Retriever.search` returns at most `top_k` pairs; the output is
the ranked index list truncated to `top_k` with each index paired with its
chunk and its BM25 score for the tokenized query; the ranked index list is a
permutation of all chunk indices and is ordered by score descending with ties
broken by the original chunk order (the index). -/
theorem claim_C5 (termScore : List Char → ℕ → ℚ) (chunks : List ℕ)
    (query : List Char) (k : ℕ) :
    (BM25Retriever.search termScore chunks query k).length ≤ k ∧
      BM25Retriever.search termScore chunks query k =
        ((BM25Retriever.rankedIdx termScore chunks.length query).take k).map
          (fun i => (chunks.getD i 0,
            (get_scores termScore (tokenize query) chunks.length).getD i 0)) ∧
      BM25Retriever.rankedIdx termScore chunks.length query ~
        List.range chunks.length ∧
      (BM25Retriever.rankedIdx termScore chunks.length query).Pairwise
        (fun i j =>
          (get_scores termScore (tokenize query) chunks.length).getD j 0 <
              (get_scores termScore (tokenize query) chunks.length).getD i 0 ∨
            ((get_scores termScore (tokenize query) chunks.length).getD i 0 =
              (get_scores termScore (tokenize query) chunks.length).getD j 0 ∧
              i < j)) := by
  refine ⟨?_, rfl, stableSortDesc_perm _ _, ?_⟩
  · calc (BM25Retriever.search termScore chunks query k).length
        = ((BM25Retriever.rankedIdx termScore chunks.length query).take k).length := by
          simp [BM25Retriever.search]
      _ ≤ k := List.length_take_le k _
  · exact stableSortDesc_lex (List.pairwise_lt_range _)

/-- C6: on both retrievers, `search_with_threshold` is `search` filtered to
scores `≥ threshold`; every returned score meets the threshold; and raising
the threshold never increases the number of results. -/
theorem claim_C6 (termScore : List Char → ℕ → ℚ) (chunks : List ℕ)
    (query : List Char) (t t' : ℚ) (k : ℕ) (sentinel : ℚ) (echunks : List ℕ)
    (sims : List ℚ) (h : t ≤ t') :
    BM25Retriever.search_with_threshold termScore chunks query t k =
        (BM25Retriever.search termScore chunks query k).filter
          (fun p => decide (t ≤ p.2)) ∧
      (∀ p ∈ BM25Retriever.search_with_threshold termScore chunks query t k,
        t ≤ p.2) ∧
      (BM25Retriever.search_with_threshold termScore chunks query t' k).length ≤
        (BM25Retriever.search_with_threshold termScore chunks query t k).length ∧
      EmbeddingRetriever.search_with_threshold sentinel echunks sims t k =
        (EmbeddingRetriever.search sentinel echunks sims k).filter
          (fun p => decide (t ≤ p.2)) ∧
      (∀ p ∈ EmbeddingRetriever.search_with_threshold sentinel echunks sims t k,
        t ≤ p.2) ∧
      (EmbeddingRetriever.search_with_threshold sentinel echunks sims t' k).length ≤
        (EmbeddingRetriever.search_with_threshold sentinel echunks sims t k).length := by
  have hlen : ∀ (l : List (ℕ × ℚ)),
      (l.filter (fun p => decide (t' ≤ p.2))).length ≤
        (l.filter (fun p => decide (t ≤ p.2))).length := by
    intro l
    rw [← List.countP_eq_length_filter, ← List.countP_eq_length_filter]
    refine List.countP_mono_left ?_
    intro p _ hp
    have := of_decide_eq_true hp
    exact decide_eq_true (le_trans h this)
  refine ⟨rfl, ?_, hlen _, rfl, ?_, hlen _⟩
  · intro p hp
    have hm := List.mem_filter.mp hp
    exact of_decide_eq_true hm.2
  · intro p hp
    have hm := List.mem_filter.mp hp
    exact of_decide_eq_true hm.2

/-- C6 witness: threshold filtering at a concrete input. -/
theorem claim_C6_witness :
    BM25Retriever.search_with_threshold (fun _ _ => 1) [5] ['a'] 0 1 =
        (BM25Retriever.search (fun _ _ => 1) [5] ['a'] 1).filter
          (fun p => decide ((0 : ℚ) ≤ p.2)) ∧
      (∀ p ∈ BM25Retriever.search_with_threshold (fun _ _ => 1) [5] ['a'] 0 1,
        (0 : ℚ) ≤ p.2) ∧
      (BM25Retriever.search_with_threshold (fun _ _ => 1) [5] ['a'] 1 1).length ≤
        (BM25Retriever.search_with_threshold (fun _ _ => 1) [5] ['a'] 0 1).length ∧
      EmbeddingRetriever.search_with_threshold 0 [5] [1] 0 1 =
        (EmbeddingRetriever.search 0 [5] [1] 1).filter
          (fun p => decide ((0 : ℚ) ≤ p.2)) ∧
      (∀ p ∈ EmbeddingRetriever.search_with_threshold 0 [5] [1] 0 1,
        (0 : ℚ) ≤ p.2) ∧
      (EmbeddingRetriever.search_with_threshold 0 [5] [1] 1 1).length ≤
        (EmbeddingRetriever.search_with_threshold 0 [5] [1] 0 1).length :=
  claim_C6 (fun _ _ => 1) [5] ['a'] 0 1 1 0 [5] [1] (by norm_num)

theorem wordRuns_all_nil : ∀ {l : List Char},
    (∀ c ∈ l, isWordChar c = false) → ∀ t ∈ wordRuns l, t = [] := by
  intro l
  induction l with
  | nil =>
    intro _ t ht
    simp only [wordRuns, List.mem_singleton] at ht
    exact ht
  | cons c rest ih =>
    intro h t ht
    have hc : isWordChar c = false := h c (List.mem_cons_self c rest)
    simp only [wordRuns, hc, Bool.false_eq_true, if_false, List.mem_cons] at ht
    rcases ht with rfl | ht
    · rfl
    · exact ih (fun c' hc' => h c' (List.mem_cons_of_mem c hc')) t ht

theorem tokenize_eq_nil {query : List Char}
    (h : ∀ c ∈ query, isWordChar c.toLower = false) : tokenize query = [] := by
  unfold tokenize
  refine List.filter_eq_nil_iff.mpr ?_
  intro t ht
  have hall : ∀ c ∈ query.map Char.toLower, isWordChar c = false := by
    intro c hc
    rcases List.mem_map.mp hc with ⟨c', hc', rfl⟩
    exact h c' hc'
  have ht0 : t = [] := wordRuns_all_nil hall t ht
  simp [ht0]

/-- C7: a query with no word tokens (for example punctuation-only) makes
`BM25Retriever.search` return the chunks in original insertion order, each
with score `0.0`, truncated to `top_k` — a well-formed, uninformative
ranking rather than an error. -/
theorem claim_C7 (termScore : List Char → ℕ → ℚ) (chunks : List ℕ)
    (query : List Char) (k : ℕ)
    (h : ∀ c ∈ query, isWordChar c.toLower = false) :
    BM25Retriever.search termScore chunks query k =
      ((List.range chunks.length).take k).map
        (fun i => (chunks.getD i 0, (0 : ℚ))) := by
  have htok : tokenize query = [] := tokenize_eq_nil h
  have hscores : get_scores termScore (tokenize query) chunks.length =
      List.replicate chunks.length (0 : ℚ) := by
    rw [htok]
    unfold get_scores
    simp
  have hkey : ∀ i, ((List.replicate chunks.length (0 : ℚ)).getD i 0) = 0 := by
    intro i
    rcases Nat.lt_or_ge i chunks.length with hi | hi
    · rw [List.getD_eq_getElem _ _ (by simpa using hi)]
      simp
    · rw [List.getD_eq_default _ _ (by simpa using hi)]
  have hsort : BM25Retriever.rankedIdx termScore chunks.length query =
      List.range chunks.length := by
    unfold BM25Retriever.rankedIdx
    rw [hscores]
    refine stableSortDesc_eq_self ?_
    refine (List.pairwise_lt_range _).imp ?_
    intro a b _
    rw [hkey a, hkey b]
  unfold BM25Retriever.search
  rw [hscores, hsort]
  refine List.map_congr_left ?_
  intro i _
  rw [hkey i]

/-- C7 witness: the spec's scenario — a punctuation-only query against a
three-chunk index returns all three chunks with score `0.0` in insertion
order. -/
theorem claim_C7_witness :
    BM25Retriever.search (fun _ _ => 1) [10, 20, 30] ['#', '?'] 5 =
      [(10, (0 : ℚ)), (20, 0), (30, 0)] := by
  rw [claim_C7 (fun _ _ => 1) [10, 20, 30] ['#', '?'] 5 (by decide)]
  rfl

/-- C3: evaluation of `EmbeddingRetriever.search` at the failing input — one
chunk (`7`, cosine similarity `1/2`) and `top_k = 2`.  The output has
`top_k = 2` entries, not `n = 1`: FAISS pads the row with index `-1` and a
sentinel score, and `self.chunks[-1]` resolves by Python negative indexing to
the last chunk, so the last chunk is duplicated with the sentinel score. -/
theorem claim_C3 :
    EmbeddingRetriever.search (-(10 : ℚ) ^ 39) [7] [(1 : ℚ) / 2] 2 =
        [(7, (1 : ℚ) / 2), (7, -(10 : ℚ) ^ 39)] ∧
      ([7] : List ℕ).length = 1 := by
  constructor
  · with_unfolding_all rfl
  · rfl

/-! ### Chunker: trim, recursion invariant, and the chunk claims -/

theorem dropWhile_dropWhile (p : Char → Bool) (l : List Char) :
    (l.dropWhile p).dropWhile p = l.dropWhile p := by
  induction l with
  | nil => rfl
  | cons c cs ih =>
    by_cases h : p c
    · simp [List.dropWhile_cons, h, ih]
    · simp [List.dropWhile_cons, h]

theorem dropWhile_cons_not {p : Char → Bool} {l t : List Char} {a : Char}
    (h : l.dropWhile p = a :: t) : p a = false := by
  induction l with
  | nil => cases h
  | cons c cs ih =>
    by_cases hc : p c
    · rw [List.dropWhile_cons, if_pos hc] at h
      exact ih h
    · rw [List.dropWhile_cons, if_neg hc] at h
      injection h with h1 _
      rw [← h1]
      simpa using hc

theorem revDrop_head_not {p : Char → Bool} {l1 : List Char}
    (hcond : ∀ a t, l1 = a :: t → p a = false) :
    ((l1.reverse.dropWhile p).reverse).dropWhile p = (l1.reverse.dropWhile p).reverse := by
  have h1 : l1 = (l1.reverse.dropWhile p).reverse ++ (l1.reverse.takeWhile p).reverse := by
    rw [← List.reverse_append, List.takeWhile_append_dropWhile, List.reverse_reverse]
  cases hr : (l1.reverse.dropWhile p).reverse with
  | nil => simp
  | cons a t =>
    rw [hr] at h1
    have hp : p a = false := hcond a (t ++ (l1.reverse.takeWhile p).reverse) h1
    rw [List.dropWhile_cons, if_neg (by simp [hp])]

theorem trim_head_drop (cs : List Char) :
    (trim cs).dropWhile Char.isWhitespace = trim cs := by
  unfold trim
  exact revDrop_head_not (fun a t h => dropWhile_cons_not h)

theorem trim_rev_drop (cs : List Char) :
    (trim cs).reverse.dropWhile Char.isWhitespace = (trim cs).reverse := by
  unfold trim
  rw [List.reverse_reverse]
  exact dropWhile_dropWhile _ _

theorem trim_idem (cs : List Char) : trim (trim cs) = trim cs := by
  conv_lhs => rw [trim]
  rw [trim_head_drop, trim_rev_drop, List.reverse_reverse]

theorem trim_length_le (cs : List Char) : (trim cs).length ≤ cs.length := by
  unfold trim
  calc (((cs.dropWhile Char.isWhitespace).reverse.dropWhile
          Char.isWhitespace).reverse).length
      = ((cs.dropWhile Char.isWhitespace).reverse.dropWhile
          Char.isWhitespace).length := List.length_reverse _
    _ ≤ (cs.dropWhile Char.isWhitespace).reverse.length :=
        (List.dropWhile_sublist _).length_le
    _ = (cs.dropWhile Char.isWhitespace).length := List.length_reverse _
    _ ≤ cs.length := (List.dropWhile_sublist _).length_le

theorem mem_buildChunks {tc : List Char → ℕ} :
    ∀ {l : List (List Char)} {i pos : ℕ} {ch : Chunk},
      ch ∈ buildChunks tc l i pos →
      ∃ c ∈ l, trim c ≠ [] ∧ ch.text = trim c ∧ ch.token_count = tc (trim c) := by
  intro l
  induction l with
  | nil => intro i pos ch h; cases h
  | cons c cs ih =>
    intro i pos ch h
    unfold buildChunks at h
    by_cases ht : trim c = []
    · rw [if_pos ht] at h
      rcases ih h with ⟨c', hc', h1, h2, h3⟩
      exact ⟨c', List.mem_cons_of_mem c hc', h1, h2, h3⟩
    · rw [if_neg ht] at h
      rcases List.mem_cons.mp h with rfl | h
      · exact ⟨c, List.mem_cons_self c cs, ht, rfl, rfl⟩
      · rcases ih h with ⟨c', hc', h1, h2, h3⟩
        exact ⟨c', List.mem_cons_of_mem c hc', h1, h2, h3⟩

theorem split_recursive_spec (tc : List Char → ℕ) (B : ℕ) :
    ∀ (seps : List (List Char)), [] ∈ seps → ∀ (text : List Char),
      ∀ c ∈ split_recursive tc B seps text,
        tc c ≤ B ∨ ∃ t, c ∈ charWindows B t := by
  intro seps
  induction seps with
  | nil => intro h; cases h
  | cons sep rest ih =>
    intro hmem text c hc
    unfold split_recursive at hc
    by_cases htr : trim text = []
    · rw [if_pos htr] at hc
      cases hc
    · rw [if_neg htr] at hc
      by_cases hsep : sep = []
      · rw [if_pos hsep] at hc
        exact Or.inr ⟨text, hc⟩
      · rw [if_neg hsep] at hc
        have hrest : ([] : List Char) ∈ rest := by
          rcases List.mem_cons.mp hmem with h' | h'
          · exact absurd h'.symm hsep
          · exact h'
        rcases List.mem_flatMap.mp hc with ⟨s, hs, hcs⟩
        by_cases h1 : trim s = []
        · rw [if_pos h1] at hcs
          cases hcs
        · rw [if_neg h1] at hcs
          by_cases h2 : tc s ≤ B
          · rw [if_pos h2] at hcs
            rcases List.mem_singleton.mp hcs with rfl
            exact Or.inl h2
          · rw [if_neg h2] at hcs
            exact ih hrest s c hcs

/-- C2: every chunk produced by `chunk_text` with budget `B` either has
`token_count ≤ B`, or its text is the trim of a fixed-size character window
produced by the empty-string fallback separator (the only irreducible units).
The hypothesis states that the opaque tokenizer never counts more tokens on a
stripped string than on the original (true of `tiktoken`, where every token
covers at least one character). -/
theorem claim_C2 (tc : List Char → ℕ) (B : ℕ) (text : List Char)
    (htc : ∀ s, tc (trim s) ≤ tc s) :
    ∀ ch ∈ chunk_text tc B text,
      ch.token_count ≤ B ∨ ∃ t c, c ∈ charWindows B t ∧ ch.text = trim c := by
  intro ch hch
  rcases mem_buildChunks hch with ⟨c, hc, _, htext, htok⟩
  rcases split_recursive_spec tc B defaultSeps (by decide) text c hc with h | ⟨t, hw⟩
  · left
    rw [htok]
    exact le_trans (htc c) h
  · right
    exact ⟨t, c, hw, htext⟩

/-- C2 witness: the budget invariant at a concrete input (length tokenizer,
budget 2, text `"ab"`). -/
theorem claim_C2_witness :
    (⟨0, ['a', 'b'], 2, 0, 2⟩ : Chunk).token_count ≤ 2 ∨
      ∃ t c, c ∈ charWindows 2 t ∧ (⟨0, ['a', 'b'], 2, 0, 2⟩ : Chunk).text = trim c :=
  claim_C2 List.length 2 ['a', 'b'] (fun s => trim_length_le s) _ (by decide)

/-- C10: every chunk returned by `chunk_text` has non-empty text after
trimming. -/
theorem claim_C10 (tc : List Char → ℕ) (B : ℕ) (text : List Char) :
    ∀ ch ∈ chunk_text tc B text, trim ch.text ≠ [] := by
  intro ch hch
  rcases mem_buildChunks hch with ⟨c, _, hne, htext, _⟩
  rw [htext, trim_idem]
  exact hne

/-- C10 witness: non-emptiness at a concrete input. -/
theorem claim_C10_witness :
    trim (⟨0, ['a', 'b'], 2, 0, 2⟩ : Chunk).text ≠ [] :=
  claim_C10 List.length 2 ['a', 'b'] _ (by decide)

/-- C8 counterexample to the claim as stated: the text `"a\n\nb"` has
whole-text token count `4 ≤ 512` (length tokenizer), yet `chunk_text` returns
two chunks, because the paragraph separator splits the text before any token
count is consulted. -/
theorem claim_C8_counterexample :
    (chunk_text List.length 512 ['a', '\n', '\n', 'b']).length = 2 ∧
      List.length ['a', '\n', '\n', 'b'] ≤ 512 := by decide

/-- C8 (amended): empty or whitespace-only input yields no chunks; and a
document that is not whitespace-only, contains no paragraph separator
(`"\n\n"` does not split it) and whose whole-text token count is within the
budget yields exactly one chunk whose text is the whole trimmed input. -/
theorem claim_C8 (tc : List Char → ℕ) (B : ℕ) (text : List Char) :
    (trim text = [] → chunk_text tc B text = []) ∧
      (trim text ≠ [] → splitOn ['\n', '\n'] text = [text] → tc text ≤ B →
        chunk_text tc B text =
          [⟨0, trim text, tc (trim text), 0, (trim text).length⟩]) := by
  constructor
  · intro h
    simp [chunk_text, defaultSeps, split_recursive, h, buildChunks]
  · intro hne hsplit htc
    unfold chunk_text
    have hraw : split_recursive tc B defaultSeps text = [text] := by
      show split_recursive tc B (['\n', '\n'] :: [['\n'], ['.', ' '], [' '], []]) text = [text]
      unfold split_recursive
      rw [if_neg hne, if_neg (by decide), hsplit]
      simp [hne, htc]
    rw [hraw]
    unfold buildChunks
    simp [hne, buildChunks]

/-- C8 witness: a one-character document produces exactly its trimmed self as
the single chunk. -/
theorem claim_C8_witness :
    chunk_text List.length 512 ['x'] = [⟨0, ['x'], 1, 0, 1⟩] :=
  (claim_C8 List.length 512 ['x']).2 (by decide) (by decide) (by decide)

end AITutor
